import Mathlib

/-!
Shallow embedding of `src/zarrtraj/CACHE.py` (the prefetching frame cache):
the pure eviction predictor `AsyncFrameCache._predict`, the worker loop
`AsyncFrameCache.run`, the consumer entry `getFrame`, `cleanup`/`_stop` and
`FrameCache.update_frame_seq`, together with theorems checking the
natural-language specification against this code.
-/

namespace Zarrtraj

/-- The inner loop of `AsyncFrameCache._predict`:
`for j in range(index, frame_seq_len): if cache[i] == frame_seq[j]: ... break`.
It returns the first position `j` with `index ≤ j < fsl` such that
`frame_seq[j] == c`, or `none` when there is no such position.
An out-of-range read `frame_seq[j]` is modelled as the default value `0`;
theorems about the predictor assume `fsl ≤ frame_seq.length`, the regime in
which the Python code does not raise `IndexError`. -/
def findNextRef (frame_seq : List Nat) (c : Nat) (index fsl : Nat) : Option Nat :=
  (List.range' index (fsl - index)).find? (fun j => frame_seq.getD j 0 == c)

/-- Index of the next future reference of chunk `c` in `frame_seq[index:fsl]`
(defaulting to `0` when there is none). -/
def nextRefD (frame_seq : List Nat) (index fsl c : Nat) : Nat :=
  (findNextRef frame_seq c index fsl).getD 0

/-- The outer loop of `AsyncFrameCache._predict` over the cache slots,
carrying the running state `res` (initially `-1`) and `farthest`
(initially `index`).  For each slot the Python loop variable `j` ends at the
break position when `cache[i]` occurs in `frame_seq[index:fsl]`, at
`fsl - 1` when it does not and the range is non-empty, and at its initial
value `0` when the range is empty; the source then tests `if j == fsl:
return i`.  `k` is the index of the slot at the head of the remaining slot
list. -/
def predictGo (frame_seq : List Nat) (index fsl : Nat) :
    List Nat → Nat → Int → Nat → Nat
  | [], _k, res, _farthest => if res = -1 then 0 else res.toNat
  | c :: rest, k, res, farthest =>
    let jb := findNextRef frame_seq c index fsl
    let jfinal : Nat :=
      match jb with
      | some j0 => j0
      | none => if index < fsl then fsl - 1 else 0
    if jfinal = fsl then k
    else
      match jb with
      | some j0 =>
        if farthest < j0 then predictGo frame_seq index fsl rest (k + 1) (k : Int) j0
        else predictGo frame_seq index fsl rest (k + 1) res farthest
      | none => predictGo frame_seq index fsl rest (k + 1) res farthest

/-- `AsyncFrameCache._predict(frame_seq, cache, frame_seq_len, index)`:
Belady-style eviction choice.  Returns the index of the cache slot to
replace; `0` when the scan never strictly improved the running maximum
(`res == -1`). -/
def predict (frame_seq cache : List Nat) (frame_seq_len index : Nat) : Nat :=
  predictGo frame_seq index frame_seq_len cache 0 (-1) index

theorem findNextRef_some_bounds {frame_seq : List Nat} {c index fsl j : Nat}
    (h : findNextRef frame_seq c index fsl = some j) :
    index ≤ j ∧ j < fsl := by
  have hmem : j ∈ List.range' index (fsl - index) :=
    List.mem_of_find?_eq_some h
  have := List.mem_range'_1.mp hmem
  omega

example : findNextRef [3, 1, 2] 1 0 3 = some 1 := by decide
example : predict [3, 1, 2] [1, 2] 3 0 = 1 := by decide
example : predict [1, 7] [7, 5] 2 0 = 0 := by decide
example : findNextRef [1, 7] 5 0 2 = none := by decide

theorem drop_cons_getD {l : List Nat} {n c : Nat} {rest : List Nat}
    (h : l.drop n = c :: rest) : l.getD n 0 = c := by
  have h2 : l[n]? = some c := by
    have := List.getElem?_drop l n 0
    rw [h] at this; simpa using this.symm
  simp [List.getD_eq_getD_get?, List.get?_eq_getElem?, h2]

theorem drop_cons_lt {l : List Nat} {n c : Nat} {rest : List Nat}
    (h : l.drop n = c :: rest) : n < l.length := by
  by_contra hc
  rw [List.drop_eq_nil_iff.mpr (by omega)] at h
  exact List.noConfusion h

theorem drop_cons_succ {l : List Nat} {n c : Nat} {rest : List Nat}
    (h : l.drop n = c :: rest) : l.drop (n + 1) = rest := by
  have := List.drop_drop 1 n l
  rw [h] at this
  simpa [Nat.add_comm] using this.symm

/-- Loop invariant argument for the outer scan of `_predict`: processing the
slots `cache.drop k` starting from state `(res, farthest)` yields the first
slot attaining the maximal next-reference index, provided every slot has a
future reference. -/
theorem predictGo_argmax (fs : List Nat) (index fsl : Nat) (cache : List Nat)
    (hfut : ∀ i, i < cache.length →
      (findNextRef fs (cache.getD i 0) index fsl).isSome = true)
    (hne : cache ≠ []) :
    ∀ (l : List Nat) (k : Nat) (res : Int) (farthest : Nat),
      cache.drop k = l →
      ((res = -1 ∧ farthest = index ∧
          ∀ j, j < k → nextRefD fs index fsl (cache.getD j 0) ≤ index) ∨
       (0 ≤ res ∧ res.toNat < k ∧ res.toNat < cache.length ∧
          farthest = nextRefD fs index fsl (cache.getD res.toNat 0) ∧
          index < farthest ∧
          (∀ j, j < k → nextRefD fs index fsl (cache.getD j 0) ≤ farthest) ∧
          (∀ j, j < res.toNat →
            nextRefD fs index fsl (cache.getD j 0) < farthest))) →
      predictGo fs index fsl l k res farthest < cache.length ∧
      (∀ j, j < cache.length →
        nextRefD fs index fsl (cache.getD j 0) ≤
          nextRefD fs index fsl
            (cache.getD (predictGo fs index fsl l k res farthest) 0)) ∧
      (∀ j, j < predictGo fs index fsl l k res farthest →
        nextRefD fs index fsl (cache.getD j 0) <
          nextRefD fs index fsl
            (cache.getD (predictGo fs index fsl l k res farthest) 0)) := by
  intro l
  induction l with
  | nil =>
    intro k res farthest hdrop hinv
    have hk : cache.length ≤ k := List.drop_eq_nil_iff.mp hdrop
    rcases hinv with ⟨hres, hfar, hall⟩ | ⟨hres0, _hrk, hrlen, hfar, _hif, hall, hstrict⟩
    · have hlen : 0 < cache.length := List.length_pos.mpr hne
      have h0 := hfut 0 hlen
      obtain ⟨j0, hj0⟩ := Option.isSome_iff_exists.mp h0
      have hb := findNextRef_some_bounds hj0
      have hnr0 : nextRefD fs index fsl (cache.getD 0 0) = j0 := by
        simp only [nextRefD, hj0, Option.getD_some]
      have hle : nextRefD fs index fsl (cache.getD 0 0) ≤ index := hall 0 (by omega)
      have hnr0i : nextRefD fs index fsl (cache.getD 0 0) = index := by omega
      simp only [predictGo, if_pos hres]
      refine ⟨hlen, ?_, ?_⟩
      · intro j hj
        rw [hnr0i]
        exact hall j (by omega)
      · intro j hj
        exact absurd hj (Nat.not_lt_zero j)
    · have hresne : ¬ res = -1 := by omega
      simp only [predictGo, if_neg hresne]
      refine ⟨hrlen, ?_, ?_⟩
      · intro j hj
        rw [← hfar]
        exact hall j (by omega)
      · intro j hj
        rw [← hfar]
        exact hstrict j hj
  | cons c rest ih =>
    intro k res farthest hdrop hinv
    have hk : k < cache.length := drop_cons_lt hdrop
    have hck : cache.getD k 0 = c := drop_cons_getD hdrop
    have hdrop' : cache.drop (k + 1) = rest := drop_cons_succ hdrop
    have hsome := hfut k hk
    rw [hck] at hsome
    obtain ⟨j0, hj0⟩ := Option.isSome_iff_exists.mp hsome
    obtain ⟨hij0, hj0f⟩ := findNextRef_some_bounds hj0
    have hnrk : nextRefD fs index fsl (cache.getD k 0) = j0 := by
      simp only [nextRefD, hck, hj0, Option.getD_some]
    have hred : predictGo fs index fsl (c :: rest) k res farthest =
        if farthest < j0 then predictGo fs index fsl rest (k + 1) (k : Int) j0
        else predictGo fs index fsl rest (k + 1) res farthest := by
      simp only [predictGo, hj0]
      rw [if_neg (by omega)]
    rw [hred]
    have hfb : index ≤ farthest := by
      rcases hinv with ⟨_, hfar, _⟩ | ⟨_, _, _, _, hif, _, _⟩
      · omega
      · omega
    have hallk : ∀ j, j < k →
        nextRefD fs index fsl (cache.getD j 0) ≤ farthest := by
      rcases hinv with ⟨_, hfar, hall⟩ | ⟨_, _, _, _, _, hall, _⟩
      · intro j hj; have := hall j hj; omega
      · exact hall
    by_cases hlt : farthest < j0
    · rw [if_pos hlt]
      apply ih (k + 1) (k : Int) j0 hdrop'
      refine Or.inr ⟨by omega, by omega, by omega, ?_, by omega, ?_, ?_⟩
      · simp only [Int.toNat_natCast]
        exact hnrk.symm
      · intro j hj
        rcases Nat.lt_succ_iff_lt_or_eq.mp hj with hj' | hj'
        · have := hallk j hj'; omega
        · subst hj'
          exact Nat.le_of_eq hnrk
      · intro j hj
        simp only [Int.toNat_natCast] at hj
        have := hallk j hj
        omega
    · rw [if_neg hlt]
      apply ih (k + 1) res farthest hdrop'
      rcases hinv with ⟨hres, hfar, hall⟩ | ⟨hres0, hrk, hrlen, hfar, hif, hall, hstrict⟩
      · refine Or.inl ⟨hres, hfar, ?_⟩
        intro j hj
        rcases Nat.lt_succ_iff_lt_or_eq.mp hj with hj' | hj'
        · exact hall j hj'
        · subst hj'; omega
      · refine Or.inr ⟨hres0, by omega, hrlen, hfar, hif, ?_, hstrict⟩
        intro j hj
        rcases Nat.lt_succ_iff_lt_or_eq.mp hj with hj' | hj'
        · exact hall j hj'
        · subst hj'; omega

/-- C1: when the cache is non-empty and every resident chunk has a future
reference in `frame_seq[index : fsl]`, `_predict` returns the slot whose
next future reference is farthest, and among slots attaining that maximum
the first one in scan order (the running maximum is updated only on strict
greater-than). -/
theorem predict_farthest_first_argmax
    (frame_seq cache : List Nat) (fsl index : Nat)
    (hne : cache ≠ [])
    (_hfsl : fsl ≤ frame_seq.length)
    (hfut : ∀ i, i < cache.length →
      (findNextRef frame_seq (cache.getD i 0) index fsl).isSome = true) :
    predict frame_seq cache fsl index < cache.length ∧
    (∀ i, i < cache.length →
      nextRefD frame_seq index fsl (cache.getD i 0) ≤
        nextRefD frame_seq index fsl
          (cache.getD (predict frame_seq cache fsl index) 0)) ∧
    (∀ i, i < predict frame_seq cache fsl index →
      nextRefD frame_seq index fsl (cache.getD i 0) <
        nextRefD frame_seq index fsl
          (cache.getD (predict frame_seq cache fsl index) 0)) := by
  have h := predictGo_argmax frame_seq index fsl cache hfut hne cache 0 (-1) index
    (List.drop_zero cache)
    (Or.inl ⟨rfl, rfl, fun j hj => absurd hj (Nat.not_lt_zero j)⟩)
  simpa [predict] using h

/-- Witness for C1 at `frame_seq = [3,1,2]`, `cache = [1,2]`, `fsl = 3`,
`index = 0`: the predictor picks slot 1 (chunk 2, next reference at
position 2). -/
theorem predict_farthest_first_argmax_witness :
    predict [3, 1, 2] [1, 2] 3 0 < ([1, 2] : List Nat).length ∧
    (∀ i, i < ([1, 2] : List Nat).length →
      nextRefD [3, 1, 2] 0 3 (([1, 2] : List Nat).getD i 0) ≤
        nextRefD [3, 1, 2] 0 3
          (([1, 2] : List Nat).getD (predict [3, 1, 2] [1, 2] 3 0) 0)) ∧
    (∀ i, i < predict [3, 1, 2] [1, 2] 3 0 →
      nextRefD [3, 1, 2] 0 3 (([1, 2] : List Nat).getD i 0) <
        nextRefD [3, 1, 2] 0 3
          (([1, 2] : List Nat).getD (predict [3, 1, 2] [1, 2] 3 0) 0)) :=
  predict_farthest_first_argmax [3, 1, 2] [1, 2] 3 0 (by decide) (by decide)
    (by decide)

/-- C2: at `frame_seq = [1,7]`, `cache = [7,5]`, `fsl = 2`, `index = 0`,
slot 1 (chunk 5) has no future reference, yet `_predict` returns slot 0
(chunk 7, which is referenced at position 1): after the inner
`for j in range(index, frame_seq_len)` loop the Python variable `j` is at
most `frame_seq_len - 1`, so the `if j == frame_seq_len: return i` branch
that the docstring describes ("attempt to find a page that is never
referenced in the future") can never fire on a non-empty suffix. -/
theorem predict_ignores_never_referenced_chunk :
    findNextRef [1, 7] 5 0 2 = none ∧
    findNextRef [1, 7] 7 0 2 = some 1 ∧
    predict [1, 7] [7, 5] 2 0 = 0 := by decide

/-- State of one `AsyncFrameCache` instance: the pending access sequence
(`self._frame_seq`, the worker cursor), the reader queue
(`self._reader_q`), the resident chunk keys, the internal flag of
`self._stop_event`, the `self._first_read` flag, and instrumentation
counting `start()` calls, ChunkStore loads, evictions and
`self._frame_available.notify()` calls. -/
structure CacheState where
  frame_seq : List Nat
  reader_q : List Nat
  cache : List Nat
  stop_event : Bool
  first_read : Bool
  started : Nat
  loads : Nat
  evictions : Nat
  notifies : Nat
  deriving DecidableEq

/-- Modelled from the spec: `_cache_contains` has no concrete implementation
in the source (it is declared `@abc.abstractmethod`); the spec reads "while
the chunk for `frameIndex` is not yet cached", so membership of the resident
key list is the modelled meaning. -/
def cache_contains (cache : List Nat) (x : Nat) : Bool :=
  decide (x ∈ cache)

/-- Modelled from the spec: `_get_key` is called by `run` but defined nowhere
in the source; per §4.2 step 4 it loads the chunk for `key` via ChunkStore
and inserts it into the cache. -/
def get_key (cache : List Nat) (key : Nat) : List Nat :=
  key :: cache

/-- Modelled from the spec: `_evict` is called by `run` but defined nowhere
in the source; per §4.2 step 5 it removes the victim slot chosen by the
eviction predictor. -/
def evict (cache : List Nat) (slot : Nat) : List Nat :=
  cache.eraseIdx slot

/-- One iteration of the body of `AsyncFrameCache.run`: pop the next frame,
derive its key as `frame % frames_per_chunk`, then skip / load /
evict-and-load-and-notify.  `_num_cache_frames` and `_max_cache_frames` are
not assigned anywhere in the source; following the spec they are the number
of resident chunks and the fixed capacity `maxc`.  The source calls
`self._predict()` without arguments (its signature needs four); following
the spec the predictor receives the remaining suffix of the access sequence
translated to chunk keys. -/
def workerStep (fpc maxc : Nat) (s : CacheState) : CacheState :=
  match s.frame_seq with
  | [] => s
  | frame :: rest =>
    let key := frame % fpc
    if cache_contains s.cache key then
      { s with frame_seq := rest }
    else if s.cache.length < maxc then
      { s with frame_seq := rest, cache := get_key s.cache key,
               loads := s.loads + 1 }
    else
      let ek := predict (rest.map (fun f => f % fpc)) s.cache rest.length 0
      { s with frame_seq := rest, cache := get_key (evict s.cache ek) key,
               loads := s.loads + 1, evictions := s.evictions + 1,
               notifies := s.notifies + 1 }

/-- Python truthiness of a `threading.Event` object: the class defines
neither a `__bool__` nor a `__len__` method, so `bool(event)` is `True`
whether or not the internal flag is set. -/
def event_bool (_flag : Bool) : Bool := true

/-- The guard of the `while` loop in `AsyncFrameCache.run`:
`self._frame_seq and not self._stop_event`.  The second conjunct negates
the truthiness of the Event object itself, not `self._stop_event.is_set()`. -/
def runCond (s : CacheState) : Bool :=
  !s.frame_seq.isEmpty && !event_bool s.stop_event

/-- `AsyncFrameCache.run`, the worker loop, with explicit fuel bounding the
number of iterations. -/
def run (fpc maxc : Nat) : Nat → CacheState → CacheState
  | 0, s => s
  | fuel + 1, s =>
    if runCond s then run fpc maxc fuel (workerStep fpc maxc s) else s

/-- `AsyncFrameCache._stop`: set the stop event. -/
def stop (s : CacheState) : CacheState :=
  { s with stop_event := true }

/-- `AsyncFrameCache.cleanup`: delegates to `_stop`. -/
def cleanup (s : CacheState) : CacheState :=
  stop s

/-- `FrameCache.update_frame_seq`: installs the access sequence and copies
it into the reader queue, with no precondition check. -/
def update_frame_seq (s : CacheState) (seq : List Nat) : CacheState :=
  { s with frame_seq := seq, reader_q := seq }

/-- The state change `AsyncFrameCache.getFrame` makes before entering its
wait loop: on the first call only, clear `_first_read` and start the worker
thread. -/
def getFrameEnter (s : CacheState) : CacheState :=
  if s.first_read then { s with first_read := false, started := s.started + 1 }
  else s

/-- The exit condition of the wait loop in `AsyncFrameCache.getFrame`
(`while not self._cache_contains(frame): self._frame_available.wait()`):
the call can proceed past the loop, and hence return, exactly when this
guard is true.  Note the source tests the raw frame index, not its chunk
key. -/
def getFrameReturns (s : CacheState) (frame : Nat) : Bool :=
  cache_contains s.cache frame

/-- The scan of `_predict` always answers a slot index below the cache
length when the cache is non-empty: the early return answers the current
slot, the final answer is either `0` or the last slot that improved the
running maximum. -/
theorem predictGo_lt (fs : List Nat) (index fsl : Nat) :
    ∀ (l : List Nat) (k : Nat) (res : Int) (farthest : Nat),
      (res = -1 ∨ res.toNat < k) → 0 < k + l.length →
      predictGo fs index fsl l k res farthest < k + l.length := by
  intro l
  induction l with
  | nil =>
    intro k res farthest hres hk
    by_cases h : res = -1
    · simp only [predictGo, if_pos h]
      simpa using hk
    · simp only [predictGo, if_neg h]
      rcases hres with h' | h'
      · exact absurd h' h
      · simpa using h'
  | cons c rest ih =>
    intro k res farthest hres _hk
    cases hjb : findNextRef fs c index fsl with
    | none =>
      simp only [predictGo, hjb]
      by_cases hfs : (if index < fsl then fsl - 1 else 0) = fsl
      · rw [if_pos hfs]
        simp only [List.length_cons]
        omega
      · rw [if_neg hfs]
        have := ih (k + 1) res farthest
          (hres.imp_right fun h => by omega) (by omega)
        simp only [List.length_cons]
        omega
    | some j0 =>
      simp only [predictGo, hjb]
      by_cases hfs : j0 = fsl
      · rw [if_pos hfs]
        simp only [List.length_cons]
        omega
      · rw [if_neg hfs]
        by_cases hlt : farthest < j0
        · rw [if_pos hlt]
          have := ih (k + 1) (k : Int) j0 (Or.inr (by omega)) (by omega)
          simp only [List.length_cons]
          omega
        · rw [if_neg hlt]
          have := ih (k + 1) res farthest
            (hres.imp_right fun h => by omega) (by omega)
          simp only [List.length_cons]
          omega

theorem predict_lt_length (fs cache : List Nat) (fsl index : Nat)
    (hne : cache ≠ []) : predict fs cache fsl index < cache.length := by
  have h := predictGo_lt fs index fsl cache 0 (-1) index (Or.inl rfl)
    (by simpa [List.length_pos] using hne)
  simpa [predict] using h

/-- Unfolding lemma for one worker iteration on a non-empty cursor. -/
theorem workerStep_cons (fpc maxc : Nat) (s : CacheState) (frame : Nat)
    (rest : List Nat) (hseq : s.frame_seq = frame :: rest) :
    workerStep fpc maxc s =
      if cache_contains s.cache (frame % fpc) then
        { s with frame_seq := rest }
      else if s.cache.length < maxc then
        { s with frame_seq := rest,
                 cache := get_key s.cache (frame % fpc),
                 loads := s.loads + 1 }
      else
        { s with frame_seq := rest,
                 cache := get_key
                   (evict s.cache
                     (predict (rest.map (fun f => f % fpc)) s.cache
                       rest.length 0)) (frame % fpc),
                 loads := s.loads + 1, evictions := s.evictions + 1,
                 notifies := s.notifies + 1 } := by
  simp only [workerStep, hseq]

/-- A single worker iteration preserves the capacity bound. -/
theorem workerStep_capacity (fpc maxc : Nat) (s : CacheState)
    (hmax : 0 < maxc) (hs : s.cache.length ≤ maxc) :
    (workerStep fpc maxc s).cache.length ≤ maxc := by
  rcases hseq : s.frame_seq with _ | ⟨frame, rest⟩
  · simp only [workerStep, hseq]
    exact hs
  · rw [workerStep_cons fpc maxc s frame rest hseq]
    by_cases hc : cache_contains s.cache (frame % fpc)
    · simp only [if_pos hc]
      exact hs
    · simp only [if_neg hc]
      by_cases hlt : s.cache.length < maxc
      · simp only [if_pos hlt, get_key, List.length_cons]
        omega
      · simp only [if_neg hlt, get_key, evict, List.length_cons]
        have hfull : s.cache.length = maxc := by omega
        have hne : s.cache ≠ [] := List.length_pos.mp (by omega)
        have hek := predict_lt_length (rest.map (fun f => f % fpc)) s.cache
          rest.length 0 hne
        have herase :
            (s.cache.eraseIdx
              (predict (rest.map (fun f => f % fpc)) s.cache
                rest.length 0)).length = s.cache.length - 1 := by
          rw [List.length_eraseIdx]
          simp [hek]
        omega

/-- C3: starting from any state within capacity, any number of worker-loop
iterations (skip, load into spare capacity, or evict-then-load) keeps the
number of resident chunks at or below `max_cache_frames`. -/
theorem worker_cache_le_capacity (fpc maxc n : Nat) (s : CacheState)
    (hmax : 0 < maxc) (hs : s.cache.length ≤ maxc) :
    ((workerStep fpc maxc)^[n] s).cache.length ≤ maxc := by
  induction n generalizing s with
  | zero => simpa using hs
  | succ n ih =>
    rw [Function.iterate_succ_apply]
    exact ih _ (workerStep_capacity fpc maxc s hmax hs)

/-- Witness for C3 with `frames_per_chunk = 2`, capacity 1, access sequence
`[0, 1, 2, 3]` and an initially empty cache. -/
theorem worker_cache_le_capacity_witness :
    0 < 1 ∧
    (([] : List Nat)).length ≤ 1 ∧
    ((workerStep 2 1)^[4]
      (⟨[0, 1, 2, 3], [], [], false, false, 0, 0, 0, 0⟩ : CacheState)).cache.length ≤ 1 :=
  ⟨by decide, by decide,
    worker_cache_le_capacity 2 1 4
      (⟨[0, 1, 2, 3], [], [], false, false, 0, 0, 0, 0⟩ : CacheState)
      (by decide) (by decide)⟩

/-- A worker iteration only ever inserts chunk keys, i.e. values reduced
modulo `frames_per_chunk`. -/
theorem workerStep_keys_lt (fpc maxc : Nat) (s : CacheState) (hfpc : 0 < fpc)
    (hwf : ∀ k ∈ s.cache, k < fpc) :
    ∀ k ∈ (workerStep fpc maxc s).cache, k < fpc := by
  rcases hseq : s.frame_seq with _ | ⟨frame, rest⟩
  · simp only [workerStep, hseq]
    exact hwf
  · rw [workerStep_cons fpc maxc s frame rest hseq]
    by_cases hc : cache_contains s.cache (frame % fpc)
    · simp only [if_pos hc]
      exact hwf
    · simp only [if_neg hc]
      by_cases hlt : s.cache.length < maxc
      · simp only [if_pos hlt, get_key]
        intro k hk
        rcases List.mem_cons.mp hk with h | h
        · subst h
          exact Nat.mod_lt frame hfpc
        · exact hwf k h
      · simp only [if_neg hlt, get_key, evict]
        intro k hk
        rcases List.mem_cons.mp hk with h | h
        · subst h
          exact Nat.mod_lt frame hfpc
        · exact hwf k (List.eraseIdx_subset _ _ h)

/-- C4: `getFrame` can pass its wait loop, and hence return frame data, only
from a state in which the requested frame's chunk is resident; and while
the chunk is absent the guard is false, so the consumer keeps blocking on
the frame-available condition.  The hypothesis `hwf` says the cache holds
chunk keys, which `workerStep_keys_lt` shows is preserved by every worker
iteration. -/
theorem getFrame_returns_only_with_resident_chunk (fpc : Nat)
    (s : CacheState) (frame : Nat)
    (hwf : ∀ k ∈ s.cache, k < fpc) :
    (getFrameReturns s frame = true →
      cache_contains s.cache (frame % fpc) = true) ∧
    (cache_contains s.cache (frame % fpc) = false →
      getFrameReturns s frame = false) := by
  have key : getFrameReturns s frame = true →
      cache_contains s.cache (frame % fpc) = true := by
    intro h
    have hmem : frame ∈ s.cache := by
      simpa [getFrameReturns, cache_contains] using h
    have hlt : frame < fpc := hwf frame hmem
    have hmod : frame % fpc = frame := Nat.mod_eq_of_lt hlt
    simp [cache_contains, hmod, hmem]
  refine ⟨key, fun h => ?_⟩
  cases hret : getFrameReturns s frame with
  | false => rfl
  | true =>
    rw [key hret] at h
    exact Bool.noConfusion h

/-- Witness for C4 with `frames_per_chunk = 2` and resident cache `[1]`. -/
theorem getFrame_returns_only_with_resident_chunk_witness :
    (∀ k ∈ (⟨[], [], [1], false, false, 0, 0, 0, 0⟩ : CacheState).cache,
      k < 2) ∧
    ((getFrameReturns (⟨[], [], [1], false, false, 0, 0, 0, 0⟩ : CacheState) 1 = true →
      cache_contains (⟨[], [], [1], false, false, 0, 0, 0, 0⟩ : CacheState).cache
        (1 % 2) = true) ∧
    (cache_contains (⟨[], [], [1], false, false, 0, 0, 0, 0⟩ : CacheState).cache
        (1 % 2) = false →
      getFrameReturns (⟨[], [], [1], false, false, 0, 0, 0, 0⟩ : CacheState) 1 = false)) :=
  ⟨by decide,
    getFrame_returns_only_with_resident_chunk 2
      (⟨[], [], [1], false, false, 0, 0, 0, 0⟩ : CacheState) 1 (by decide)⟩

/-- C10: the guard of the worker loop is always false — `not
self._stop_event` negates the always-truthy Event object, not its flag —
so `run` never executes its body: no pops, no loads, no evictions, no
notifications, every field of the cache state unchanged. -/
theorem run_never_executes_body (fpc maxc fuel : Nat) (s : CacheState) :
    run fpc maxc fuel s = s := by
  cases fuel with
  | zero => rfl
  | succ n => simp [run, runCond, event_bool]

/-- C5 counterexample: at `frames_per_chunk = 2`, capacity 2, a worker
iteration on frame 0 with an empty cache takes the spare-capacity path: it
inserts chunk key 0 and performs one load, but never signals the
frame-available condition (`notify` appears only on the eviction path of
`run`). -/
theorem plain_load_does_not_notify :
    (workerStep 2 2 (⟨[0], [], [], false, false, 0, 0, 0, 0⟩ : CacheState)).cache = [0] ∧
    (workerStep 2 2 (⟨[0], [], [], false, false, 0, 0, 0, 0⟩ : CacheState)).loads = 1 ∧
    (workerStep 2 2 (⟨[0], [], [], false, false, 0, 0, 0, 0⟩ : CacheState)).notifies = 0 := by
  decide

/-- C5 amended: a worker iteration on a missing chunk always inserts the key
and counts one ChunkStore load, but signals the frame-available condition
only when it took the eviction path (cache full); a plain load into spare
capacity does not notify. -/
theorem insertion_notifies_only_when_full (fpc maxc : Nat) (s : CacheState)
    (frame : Nat) (rest : List Nat)
    (hseq : s.frame_seq = frame :: rest)
    (hmiss : cache_contains s.cache (frame % fpc) = false) :
    cache_contains (workerStep fpc maxc s).cache (frame % fpc) = true ∧
    (workerStep fpc maxc s).loads = s.loads + 1 ∧
    (workerStep fpc maxc s).notifies =
      (if s.cache.length < maxc then s.notifies else s.notifies + 1) := by
  rw [workerStep_cons fpc maxc s frame rest hseq]
  rw [if_neg (by simp [hmiss])]
  by_cases hlt : s.cache.length < maxc
  · simp [if_pos hlt, get_key, cache_contains]
  · simp [if_neg hlt, get_key, cache_contains]

/-- Witness for the amended C5: a full single-slot cache forces the eviction
path, which does notify. -/
theorem insertion_notifies_only_when_full_witness :
    (⟨[1], [], [0], false, false, 0, 0, 0, 0⟩ : CacheState).frame_seq = 1 :: [] ∧
    cache_contains (⟨[1], [], [0], false, false, 0, 0, 0, 0⟩ : CacheState).cache (1 % 2) = false ∧
    (cache_contains
        (workerStep 2 1 (⟨[1], [], [0], false, false, 0, 0, 0, 0⟩ : CacheState)).cache
        (1 % 2) = true ∧
      (workerStep 2 1 (⟨[1], [], [0], false, false, 0, 0, 0, 0⟩ : CacheState)).loads = 0 + 1 ∧
      (workerStep 2 1 (⟨[1], [], [0], false, false, 0, 0, 0, 0⟩ : CacheState)).notifies =
        (if (⟨[1], [], [0], false, false, 0, 0, 0, 0⟩ : CacheState).cache.length < 1
          then 0 else 0 + 1)) :=
  ⟨rfl, by decide,
    insertion_notifies_only_when_full 2 1
      (⟨[1], [], [0], false, false, 0, 0, 0, 0⟩ : CacheState) 1 [] rfl (by decide)⟩

/-- C6: an already-cached key makes the worker iteration a pure advance
(no load, no eviction, no notify, cache untouched), and two consecutive
accesses whose frames map to the same chunk key cost at most one load. -/
theorem worker_coalesces_same_key (fpc maxc : Nat) (s : CacheState)
    (f1 f2 : Nat) (rest : List Nat)
    (hseq : s.frame_seq = f1 :: f2 :: rest)
    (hkey : f1 % fpc = f2 % fpc) :
    (cache_contains s.cache (f1 % fpc) = true →
      workerStep fpc maxc s = { s with frame_seq := f2 :: rest }) ∧
    (workerStep fpc maxc (workerStep fpc maxc s)).loads ≤ s.loads + 1 := by
  have hskip : ∀ t : CacheState, t.frame_seq = f2 :: rest →
      cache_contains t.cache (f2 % fpc) = true →
      workerStep fpc maxc t = { t with frame_seq := rest } := by
    intro t ht hc
    rw [workerStep_cons fpc maxc t f2 rest ht, if_pos hc]
  constructor
  · intro hc
    rw [workerStep_cons fpc maxc s f1 (f2 :: rest) hseq, if_pos hc]
  · by_cases hc : cache_contains s.cache (f1 % fpc) = true
    · have h1 : workerStep fpc maxc s = { s with frame_seq := f2 :: rest } := by
        rw [workerStep_cons fpc maxc s f1 (f2 :: rest) hseq, if_pos hc]
      rw [h1, hskip { s with frame_seq := f2 :: rest } rfl (by rw [← hkey]; exact hc)]
      exact Nat.le_succ s.loads
    · have hc' : ¬ cache_contains s.cache (f1 % fpc) := by
        simpa using hc
      rw [workerStep_cons fpc maxc s f1 (f2 :: rest) hseq, if_neg hc']
      by_cases hlt : s.cache.length < maxc
      · rw [if_pos hlt]
        rw [hskip _ rfl (by rw [← hkey]; simp [get_key, cache_contains])]
      · rw [if_neg hlt]
        rw [hskip _ rfl (by rw [← hkey]; simp [get_key, cache_contains])]

/-- Witness for C6: frames 0 and 2 share chunk key 0 under
`frames_per_chunk = 2`; the two iterations perform a single load. -/
theorem worker_coalesces_same_key_witness :
    (⟨[0, 2], [], [], false, false, 0, 0, 0, 0⟩ : CacheState).frame_seq = 0 :: 2 :: [] ∧
    0 % 2 = 2 % 2 ∧
    ((cache_contains (⟨[0, 2], [], [], false, false, 0, 0, 0, 0⟩ : CacheState).cache
        (0 % 2) = true →
      workerStep 2 2 (⟨[0, 2], [], [], false, false, 0, 0, 0, 0⟩ : CacheState) =
        { (⟨[0, 2], [], [], false, false, 0, 0, 0, 0⟩ : CacheState) with
            frame_seq := 2 :: [] }) ∧
    (workerStep 2 2
        (workerStep 2 2 (⟨[0, 2], [], [], false, false, 0, 0, 0, 0⟩ : CacheState))).loads ≤
      0 + 1) :=
  ⟨rfl, by decide,
    worker_coalesces_same_key 2 2
      (⟨[0, 2], [], [], false, false, 0, 0, 0, 0⟩ : CacheState) 0 2 [] rfl (by decide)⟩

/-- Modelled from the spec: `run` with a fallible ChunkStore.  The source
has no exception handling in `run` or in `getFrame`, and no error channel
they could use: a load failure inside `_get_key` propagates out of the loop
body, which terminates the worker thread.  The `Except.error` payload is
the state at the moment the exception escapes; note that on the eviction
path the victim was already evicted before the failing load, and the
notification never happens. -/
def workerStepE (loadOk : Nat → Bool) (fpc maxc : Nat) (s : CacheState) :
    Except CacheState CacheState :=
  match s.frame_seq with
  | [] => Except.ok s
  | frame :: rest =>
    let key := frame % fpc
    if cache_contains s.cache key then
      Except.ok { s with frame_seq := rest }
    else if s.cache.length < maxc then
      if loadOk key then
        Except.ok { s with frame_seq := rest, cache := get_key s.cache key,
                           loads := s.loads + 1 }
      else
        Except.error { s with frame_seq := rest }
    else
      let ek := predict (rest.map (fun f => f % fpc)) s.cache rest.length 0
      if loadOk key then
        Except.ok { s with frame_seq := rest,
                           cache := get_key (evict s.cache ek) key,
                           loads := s.loads + 1, evictions := s.evictions + 1,
                           notifies := s.notifies + 1 }
      else
        Except.error { s with frame_seq := rest, cache := evict s.cache ek,
                              evictions := s.evictions + 1 }

/-- C7 evidence: when ChunkStore fails on chunk key 1, the iteration ends in
an escaping exception (the worker dies), the chunk is never inserted, no
notification is issued, and the wait guard of a consumer blocked on frame 1
is still false — the consumer is never woken with any error result. -/
theorem load_failure_leaves_waiter_blocked :
    workerStepE (fun _ => false) 2 1
        (⟨[1], [], [], false, false, 0, 0, 0, 0⟩ : CacheState) =
      Except.error (⟨[], [], [], false, false, 0, 0, 0, 0⟩ : CacheState) ∧
    getFrameReturns (⟨[], [], [], false, false, 0, 0, 0, 0⟩ : CacheState) 1 = false ∧
    (⟨[], [], [], false, false, 0, 0, 0, 0⟩ : CacheState).notifies = 0 :=
  ⟨rfl, rfl, rfl⟩

/-- C8 evidence: with a consumer blocked on frame 5 (cache empty, worker
already started), `cleanup` merely sets the stop event: the cache and the
notification count are untouched, the consumer wait guard is still false
(the call stays blocked, no `Cancelled` result exists in the code), and a
subsequent `getFrame` entry is a no-op — it neither fails nor restarts the
worker. -/
theorem cleanup_leaves_waiter_blocked :
    cleanup (⟨[5], [5], [], false, false, 1, 0, 0, 0⟩ : CacheState) =
      (⟨[5], [5], [], true, false, 1, 0, 0, 0⟩ : CacheState) ∧
    getFrameReturns (cleanup (⟨[5], [5], [], false, false, 1, 0, 0, 0⟩ : CacheState)) 5 =
      false ∧
    (cleanup (⟨[5], [5], [], false, false, 1, 0, 0, 0⟩ : CacheState)).notifies = 0 ∧
    getFrameEnter (cleanup (⟨[5], [5], [], false, false, 1, 0, 0, 0⟩ : CacheState)) =
      cleanup (⟨[5], [5], [], false, false, 1, 0, 0, 0⟩ : CacheState) :=
  ⟨rfl, rfl, rfl, rfl⟩

/-- C9 counterexample: a second `update_frame_seq` call does not fail — it
silently replaces the installed sequence `[0, 1]` and the reader queue with
the new sequence `[5]`. -/
theorem update_frame_seq_twice_resets :
    update_frame_seq
        (update_frame_seq (⟨[], [], [], false, true, 0, 0, 0, 0⟩ : CacheState) [0, 1])
        [5] =
      (⟨[5], [5], [], false, true, 0, 0, 0, 0⟩ : CacheState) :=
  rfl

/-- C9 amended: `update_frame_seq` performs no precondition check; calling
it a second time silently resets both the access sequence and the reader
queue to the newly supplied sequence, whatever was installed before. -/
theorem update_frame_seq_always_overwrites (s : CacheState)
    (seq1 seq2 : List Nat) :
    (update_frame_seq (update_frame_seq s seq1) seq2).frame_seq = seq2 ∧
    (update_frame_seq (update_frame_seq s seq1) seq2).reader_q = seq2 :=
  ⟨rfl, rfl⟩

end Zarrtraj
